import Mathlib

/-!
Shallow embedding of the retrieval pipeline of the `multimodal-rag` repository
(`src/multimodal_rag/retrieval/`): query data structures, the execution
planner, the rule-based intent analysis and decomposition, the hybrid
retriever's merge step, the reranker, the multi-step executor and the result
synthesizer.  Python floats are modelled as rationals (`ℚ`), Python strings as
`String` (a list of unicode characters, as in Python), dictionary fields that
may be absent as `Option`, and exceptions as `Except` / `Option`.
-/

namespace MultimodalRag

/-! ### Data structures (`query_structures.py`) -/

/-- Embedding of `SubQuery` from `query_structures.py`.  `depends_on` is `None`/list in
Python; `None` and `[]` are observationally identical in all consuming code
(`sq.depends_on or []`, truthiness tests), so it is modelled as a plain list. -/
structure SubQuery where
  query : String
  intent : String
  priority : Int
  depends_on : List Int
  context_needed : Bool
deriving Repr, DecidableEq

/-- Embedding of `QueryIntent` from `query_structures.py`.  The free-text `reasoning`
diagnostic field (never read by any code under verification) is omitted. -/
structure QueryIntent where
  intent_type : String
  complexity_score : ℚ
  key_concepts : List String
  question_type : String
  requires_decomposition : Bool
deriving Repr, DecidableEq

/-- Embedding of `DecompositionResult` from `query_structures.py`. -/
structure DecompositionResult where
  original_query : String
  intent : QueryIntent
  sub_queries : List SubQuery
  execution_plan : List Int
deriving Repr, DecidableEq

/-! ### Execution planner (`IntelligentQueryDecomposer._generate_execution_plan`)

The Python planner builds `dependency_graph = {i: sq.depends_on or []}`, then
runs a depth-first traversal with a `visited` set, a `temp_visited` set (the
nodes on the current recursion stack) and an `execution_plan` accumulator,
over the nodes sorted stably by ascending priority.  Inside the dependency
loop only dependencies with `dep < len(sub_queries)` are followed — note that
negative dependencies pass this test.

`temp_visited` is exactly the set of nodes on the current Python call stack
(each call adds its node on entry and removes it on exit), so it is modelled
as a read-only stack parameter `temp`.  The recursion is embedded with a fuel
parameter to make it structurally recursive; `dfsA_fuel_stable` shows the
fuel chosen by `generateExecutionPlan` is beyond the recursion's actual
depth, so the embedding computes the Python fixpoint. -/

/-- The dependencies the Python loop iterates over for `node`:
`dependency_graph.get(node, [])` filtered by `dep < len(sub_queries)`.
Keys of `dependency_graph` are exactly `0..len-1`. -/
def validDeps (graph : List (List Int)) (node : Int) : List Int :=
  (if h : 0 ≤ node ∧ node.toNat < graph.length then graph.get ⟨node.toNat, h.2⟩ else []).filter
    (fun dep => dep < (graph.length : Int))

/-- Depth-first traversal state: `(visited, execution_plan)`. -/
abbrev PlanSt := List Int × List Int

/-- One worklist pass of the Python `dfs`: process the nodes of `l` in order
with recursion stack `temp`.  Processing a node not in `temp`/`visited`
recurses into its valid dependencies with the node pushed on the stack, then
adds the node to `visited` and appends it to the plan. -/
def dfsA (graph : List (List Int)) : Nat → List Int → List Int → PlanSt → PlanSt
  | 0, _, _, vp => vp
  | _ + 1, _, [], vp => vp
  | fuel + 1, temp, node :: rest, vp =>
    if node ∈ temp ∨ node ∈ vp.1 then dfsA graph fuel temp rest vp
    else
      let vp2 := dfsA graph fuel (node :: temp) (validDeps graph node) vp
      dfsA graph fuel temp rest (node :: vp2.1, vp2.2 ++ [node])

/-- The longest dependency list in the graph: with `n` sub-queries, the
traversal's nesting depth is at most `n + 1` and each level walks at most
`maxDeps` dependencies, so `(n + 1) * (maxDeps + 2)` fuel units always
suffice (`dfsA_fuel_stable`). -/
def maxDeps (graph : List (List Int)) : Nat := (graph.map List.length).foldr Nat.max 0

/-- Number of valid node indices not on the recursion stack — the quantity
that shrinks whenever the traversal descends into a fresh valid node. -/
def cntValid (n : Nat) (temp : List Int) : Nat :=
  ((Finset.range n).filter (fun i : Nat => (i : Int) ∉ temp)).card

/-- Priority of the sub-query at a (valid) index, for the stable sort of
`sorted(range(len(sub_queries)), key=lambda x: sub_queries[x].priority)`. -/
def prioAt (sqs : List SubQuery) (i : Int) : Int :=
  ((sqs.get? i.toNat).map SubQuery.priority).getD 0

/-- Embedding of `sorted(range(n), key=priority)`: indices `0..n-1` sorted stably by
ascending priority (Python's sort is stable; so is insertion sort with this
relation). -/
def nodesByPriority (sqs : List SubQuery) : List Int :=
  ((List.range sqs.length).map Int.ofNat).insertionSort
    (fun i j => prioAt sqs i ≤ prioAt sqs j)

/-- Embedding of `IntelligentQueryDecomposer._generate_execution_plan`.  The fuel
`(n + 1) * (maxDeps + 2)` dominates the depth of the Python recursion (each
nesting level pushes a fresh valid node onto the stack, of which there are at
most `n`, and each level walks a dependency list of at most `maxDeps`
entries), so the traversal below never exhausts it. -/
def generateExecutionPlan (sqs : List SubQuery) : List Int :=
  if sqs.isEmpty then []
  else
    (dfsA (sqs.map SubQuery.depends_on)
      ((sqs.length + 1) * (maxDeps (sqs.map SubQuery.depends_on) + 2))
      [] (nodesByPriority sqs) ([], [])).2

/-! ### Rule-based intent analysis
(`IntelligentQueryDecomposer._rule_based_intent_analysis`) -/

/-- Python's substring test `kw in q`: some tail of `q` starts with `kw`. -/
def strContains (q kw : String) : Bool :=
  q.data.tails.any (fun t => kw.data.isPrefixOf t)

/-- Embedding of `complex_keywords` from `_rule_based_intent_analysis`. -/
def complexKeywords : List String :=
  ["比较", "对比", "分析", "评估", "总结", "归纳", "如何", "为什么", "原因", "影响", "关系"]

/-- Embedding of `connectors` from `_rule_based_intent_analysis`. -/
def connectorWords : List String :=
  ["和", "与", "以及", "同时", "另外", "此外", "而且", "并且"]

/-- Words excluded from key-concept extraction. -/
def questionWords : List String := ["如何", "为什么", "什么", "哪些", "怎么"]

/-- The accumulated complexity score before the final `min(·, 10.0)` clamp:
a length contribution capped at 3 (`len/50`), `+1.5` per complex keyword
present, `+1.0` per connector present, `+0.5` per `?`/`？`. -/
def rawComplexity (q : String) : ℚ :=
  min ((q.length : ℚ) / 50) 3
    + (3 / 2) * ((complexKeywords.filter (fun kw => strContains q kw)).length : ℚ)
    + 1 * ((connectorWords.filter (fun c => strContains q c)).length : ℚ)
    + ((q.data.count '?' : ℚ)) * (1 / 2) + ((q.data.count '？' : ℚ)) * (1 / 2)

/-- Split a character list at whitespace characters (keeping empty pieces,
as `str.split` on a single separator would). -/
def splitOnWs : List Char → List (List Char)
  | [] => [[]]
  | c :: cs =>
    if c.isWhitespace then [] :: splitOnWs cs
    else
      match splitOnWs cs with
      | [] => [[c]]
      | w :: ws => (c :: w) :: ws

/-- Python `str.split()`: split on whitespace and drop the empty pieces. -/
def pySplitWs (q : String) : List String :=
  ((splitOnWs q.data).map (fun l => String.mk l)).filter (fun w => w ≠ "")

/-- Embedding of `_rule_based_intent_analysis` (the fallback used whenever no LLM is
configured).  `threshold` is `config['decomposition_threshold']`, 6.0 by
default.  Note the code compares the *unclamped* score against the threshold
while storing the clamped score in the intent. -/
def ruleBasedIntentAnalysis (threshold : ℚ) (q : String) : QueryIntent :=
  let score := rawComplexity q
  { intent_type :=
      if ["比较", "对比", "区别"].any (fun w => strContains q w) then "comparative"
      else if (["和", "与", "以及"].any (fun w => strContains q w)) ∧ 5 < score then "multi_aspect"
      else if 6 < score then "complex"
      else "simple"
    complexity_score := min score 10
    key_concepts :=
      ((pySplitWs q).filter (fun w => 2 < w.length ∧ w ∉ questionWords)).take 5
    question_type :=
      if ["如何", "怎么", "步骤", "方法"].any (fun w => strContains q w) then "procedural"
      else if ["为什么", "原因", "分析", "评估"].any (fun w => strContains q w) then "analytical"
      else if ["比较", "对比", "区别"].any (fun w => strContains q w) then "comparative"
      else "factual"
    requires_decomposition := decide (threshold ≤ score) }

/-! ### Rule-based decomposition (`IntelligentQueryDecomposer`) -/

/-- Embedding of `_decompose_comparative_query` (the `query` argument is unused by the
source).  The two `len(concepts) >= 2` tests of the source are merged. -/
def decomposeComparativeQuery (intent : QueryIntent) : List SubQuery :=
  if 2 ≤ intent.key_concepts.length then
    ((intent.key_concepts.take 2).map (fun c =>
        (⟨c ++ "的特点和属性", "了解" ++ c ++ "的基本信息", 1, [], false⟩ : SubQuery)))
      ++ [⟨(intent.key_concepts.headD "") ++ "和" ++ ((intent.key_concepts.get? 1).getD "")
            ++ "的比较分析", "比较分析两者的差异", 2, [0, 1], true⟩]
  else []

/-- Embedding of `_decompose_multi_aspect_query`. -/
def decomposeMultiAspectQuery (intent : QueryIntent) : List SubQuery :=
  let base := (intent.key_concepts.take 3).map (fun c =>
    (⟨c ++ "的详细信息和相关内容", "了解" ++ c ++ "的具体情况", 1, [], false⟩ : SubQuery))
  if 1 < intent.key_concepts.length then
    base ++ [⟨String.intercalate "、" (intent.key_concepts.take 3) ++ "之间的关系和综合分析",
      "综合分析各方面的关系", 2, (List.range base.length).map Int.ofNat, true⟩]
  else base

/-- Embedding of `_decompose_complex_query`. -/
def decomposeComplexQuery (q : String) (intent : QueryIntent) : List SubQuery :=
  if intent.question_type = "procedural" then
    [⟨(intent.key_concepts.headD "") ++ "的基本概念和定义", "了解基本概念", 1, [], false⟩,
     ⟨q ++ "的具体步骤和方法", "获取具体操作步骤", 2, [0], true⟩]
  else if intent.question_type = "analytical" then
    if intent.key_concepts ≠ [] then
      [⟨(intent.key_concepts.headD "") ++ "的基本情况和背景", "了解背景信息", 1, [], false⟩,
       ⟨(intent.key_concepts.headD "") ++ "的影响因素和原因分析", "分析影响因素", 2, [0], true⟩]
    else []
  else
    (intent.key_concepts.take 2).map (fun c =>
      (⟨c ++ "的详细信息", "了解" ++ c, 1, [], false⟩ : SubQuery))

/-- Embedding of `_rule_based_decomposition`. -/
def ruleBasedDecomposition (q : String) (intent : QueryIntent) : List SubQuery :=
  if intent.intent_type = "comparative" then decomposeComparativeQuery intent
  else if intent.intent_type = "multi_aspect" then decomposeMultiAspectQuery intent
  else if intent.intent_type = "complex" then decomposeComplexQuery q intent
  else [⟨q, "simple", 1, [], false⟩]

/-- Embedding of `analyze_and_decompose` on the rule-based path (no LLM configured): if
the intent does not require decomposition, return the original query as the
unique sub-query with plan `[0]`; otherwise decompose and plan. -/
def analyzeAndDecompose (threshold : ℚ) (q : String) : DecompositionResult :=
  if ¬ (ruleBasedIntentAnalysis threshold q).requires_decomposition then
    { original_query := q, intent := ruleBasedIntentAnalysis threshold q,
      sub_queries := [⟨q, "simple", 1, [], false⟩], execution_plan := [0] }
  else
    { original_query := q, intent := ruleBasedIntentAnalysis threshold q,
      sub_queries := ruleBasedDecomposition q (ruleBasedIntentAnalysis threshold q),
      execution_plan :=
        generateExecutionPlan (ruleBasedDecomposition q (ruleBasedIntentAnalysis threshold q)) }

/-- A comparison question that does reach the decomposition threshold on the
rule-based path (score `9.78 ≥ 6`) and has two multi-character key concepts. -/
def cmpQuery : String := "比较 Python语言 Java语言 的优缺点 分析 评估 为什么 如何？？？"

/-! ### Hybrid retriever merge (`HybridRetriever._merge_results`) -/

/-- The fields of a raw retrieval hit that `_merge_results` reads.  `score`,
`priority_score` and `content_category` may be absent from the result dict
(`result.get(...)` defaults `0`, `0.5`, `'other'`); `content` defaults to
`''` and is the deduplication key, so it is kept as a plain string. -/
structure RawHit where
  content : String
  score : Option ℚ
  priority_score : Option ℚ
  content_category : Option String
deriving Repr, DecidableEq

/-- The combined score `retrieval_score * (0.7 + 0.3 * priority_score)`, with
the fixed `×0.3` down-weighting applied to `priority_score` first when the
content is classified as `references`. -/
def combinedScore (r : RawHit) : ℚ :=
  let retrieval_score := r.score.getD 0
  let ps0 := r.priority_score.getD (1 / 2)
  let ps := if r.content_category.getD "other" = "references" then ps0 * (3 / 10) else ps0
  retrieval_score * (7 / 10 + 3 / 10 * ps)

/-- Deduplication: keep the first hit for each exact content value
(`hash(content)`-keyed in Python; the hash is modelled as the content
itself). -/
def dedupByContent : List (RawHit × ℚ) → List String → List (RawHit × ℚ)
  | [], _ => []
  | p :: rest, seen =>
    if p.1.content ∈ seen then dedupByContent rest seen
    else p :: dedupByContent rest (p.1.content :: seen)

/-- Sort key for the descending stable sort by combined score
(`results.sort(key=lambda x: x.get('combined_score', 0), reverse=True)`). -/
def scoreGE (a b : RawHit × ℚ) : Prop := b.2 ≤ a.2

instance : DecidableRel scoreGE := fun a b => inferInstanceAs (Decidable (b.2 ≤ a.2))

instance : IsTotal (RawHit × ℚ) scoreGE := ⟨fun a b => le_total b.2 a.2⟩

instance : IsTrans (RawHit × ℚ) scoreGE := ⟨fun _ _ _ h1 h2 => le_trans h2 h1⟩

/-- Embedding of `_merge_results`: attach the combined score to every hit, sort descending
by it (Python's `list.sort` is stable; so is insertion sort under `scoreGE`),
then deduplicate by content keeping the first occurrence. -/
def mergeResults (results : List RawHit) : List (RawHit × ℚ) :=
  dedupByContent ((results.map (fun r => (r, combinedScore r))).insertionSort scoreGE) []

/-! ### Reranker (`Reranker.rerank`)

The semantic, keyword and position sub-scores are deterministic per-item
functions of the fixed query and the item's own fields (`score`, `content`,
`page_num`, `chunk_index`), but their computations go through an embedding
model and `math.log`, so they are abstracted as `ℚ`-valued parameters.  The
content-type sub-score is embedded concretely.  `rerank` writes the computed
scores into the result dicts (`rerank_score` etc.) — fields none of the
sub-scores read — and sorts the list in place, so it is modelled as returning
the permuted items. -/

/-- The fields of a result dict that the reranker's concrete logic reads. -/
structure RRItem where
  content : String
  score : Option ℚ
  chunk_type : Option String
  page_num : Option ℚ
  chunk_index : Option ℚ
deriving Repr, DecidableEq

/-- Embedding of `content_type_weights`: `text=1.0, table=0.9, image=0.8`. -/
def contentTypeWeights : List (String × ℚ) := [("text", 1), ("table", 9 / 10), ("image", 8 / 10)]

/-- Embedding of `_calculate_content_type_scores` for one item:
`self.content_type_weights.get(result.get('chunk_type', 'text'), 0.5)`. -/
def contentTypeScore (item : RRItem) : ℚ :=
  (contentTypeWeights.lookup (item.chunk_type.getD "text")).getD (1 / 2)

/-- The weighted rerank score
`0.4*semantic + 0.3*keyword + 0.2*content_type + 0.1*position`. -/
def rerankScore (sem kw pos : RRItem → ℚ) (it : RRItem) : ℚ :=
  sem it * (4 / 10) + kw it * (3 / 10) + contentTypeScore it * (2 / 10) + pos it * (1 / 10)

/-- Sort key for `results.sort(key=lambda x: x['rerank_score'], reverse=True)`. -/
def rrGE (sem kw pos : RRItem → ℚ) (a b : RRItem) : Prop :=
  rerankScore sem kw pos b ≤ rerankScore sem kw pos a

instance (sem kw pos : RRItem → ℚ) : DecidableRel (rrGE sem kw pos) :=
  fun a b => inferInstanceAs (Decidable (rerankScore sem kw pos b ≤ rerankScore sem kw pos a))

instance (sem kw pos : RRItem → ℚ) : IsTotal RRItem (rrGE sem kw pos) :=
  ⟨fun a b => le_total (rerankScore sem kw pos b) (rerankScore sem kw pos a)⟩

instance (sem kw pos : RRItem → ℚ) : IsTrans RRItem (rrGE sem kw pos) :=
  ⟨fun _ _ _ h1 h2 => le_trans h2 h1⟩

/-- Embedding of `Reranker.rerank`: stable sort descending by the weighted score.
(The `if not results: return results` fast path sorts to the same `[]`.) -/
def rerank (sem kw pos : RRItem → ℚ) (results : List RRItem) : List RRItem :=
  results.insertionSort (rrGE sem kw pos)

/-! ### Multi-step executor (`MultiStepQueryExecutor.execute_decomposed_query`)

The retriever is modelled as a fallible function `String → Except`; a Python
exception raised by `retriever.retrieve` is an `Except.error`, which the
executor catches.  The `IndexError` that an invalid negative plan index would
raise at `decomposition.sub_queries[query_idx]` (outside the `try`) is
modelled by the executor itself returning `Except.error`. -/

/-- The fields of a retrieved result dict that the executor and synthesizer
read: `content` may be absent, `score` defaults to 0 in `_fuse_results`. -/
structure ExecHit where
  content : Option String
  score : Option ℚ
deriving Repr, DecidableEq

/-- One entry of `self.execution_context[query_idx]`. -/
structure CtxEntry where
  query : String
  results : List ExecHit
  step : Nat
deriving Repr, DecidableEq

/-- Python dict lookup in an association list (later insertions are consed in
front, shadowing earlier entries like a dict overwrite). -/
def dictFind {β : Type} (m : List (Int × β)) (i : Int) : Option β :=
  (m.find? (fun p => p.1 == i)).map Prod.snd

/-- Execution context: `{query_idx: {'query': …, 'results': …, 'step': …}}`. -/
abbrev ExecCtx := List (Int × CtxEntry)

/-- Python's index normalization: negative indices count from the end. -/
def pyNorm (n : Nat) (i : Int) : Int := if i < 0 then (n : Int) + i else i

/-- Python list indexing `l[i]`; `none` models an `IndexError`. -/
def pyIndex {α : Type} (l : List α) (i : Int) : Option α :=
  if h : 0 ≤ pyNorm l.length i ∧ (pyNorm l.length i).toNat < l.length then
    some (l.get ⟨(pyNorm l.length i).toNat, h.2⟩)
  else none

/-- Python slicing `s[:n]`. -/
def strTake (s : String) (n : Nat) : String := ⟨s.data.take n⟩

/-- Embedding of `MultiStepQueryExecutor._build_query_context`: prefix the sub-query with
snippets (first 200 characters) of the first two results of every dependency
present in the execution context with a non-empty result list; the joined
context is truncated to `max_context_length = 1000` characters. -/
def buildQueryContext (ctx : ExecCtx) (sq : SubQuery) : String :=
  if ¬ sq.context_needed ∨ sq.depends_on = [] then sq.query
  else
    let context_parts := sq.depends_on.foldl (fun parts dep =>
      match dictFind ctx dep with
      | none => parts
      | some e =>
        if e.results ≠ [] then
          parts ++ ((e.results.take 2).filterMap (fun r =>
            r.content.map (fun c => "相关信息: " ++ strTake c 200)))
        else parts) []
    if context_parts ≠ [] then
      (if 1000 < (String.intercalate " " context_parts).length then
          strTake (String.intercalate " " context_parts) 1000 ++ "..."
        else String.intercalate " " context_parts) ++ "\n\n基于以上信息，" ++ sq.query
    else sq.query

/-- One step of the executor's plan loop: skip indices `>= len`, fail with an
uncaught `IndexError` on indices below `-len`, otherwise retrieve with the
context-augmented query; a retrieval error is caught (logged) and the state
is left unchanged — the step contributes neither a context entry nor
results. -/
def execStep (retrieve : String → Except String (List ExecHit)) (sqs : List SubQuery)
    (st : ExecCtx × List ExecHit) (stepIdx : Nat) (qidx : Int) :
    Except String (ExecCtx × List ExecHit) :=
  if (sqs.length : Int) ≤ qidx then Except.ok st
  else
    match pyIndex sqs qidx with
    | none => Except.error "IndexError"
    | some sq =>
      match retrieve (buildQueryContext st.1 sq) with
      | Except.error _ => Except.ok st
      | Except.ok results =>
        Except.ok ((qidx, ⟨sq.query, results, stepIdx⟩) :: st.1, st.2 ++ results)

/-- The `for step, query_idx in enumerate(decomposition.execution_plan)`
loop. -/
def execPlan (retrieve : String → Except String (List ExecHit)) (sqs : List SubQuery) :
    List Int → Nat → ExecCtx × List ExecHit → Except String (ExecCtx × List ExecHit)
  | [], _, st => Except.ok st
  | qidx :: rest, stepIdx, st =>
    match execStep retrieve sqs st stepIdx qidx with
    | Except.error e => Except.error e
    | Except.ok st2 => execPlan retrieve sqs rest (stepIdx + 1) st2

/-- Embedding of `_fuse_results`: deduplicate by the first 100 characters of the content
(in accumulation order), keeping the first occurrence. -/
def fuseDedup : List ExecHit → List String → List ExecHit
  | [], _ => []
  | r :: rest, seen =>
    if strTake (r.content.getD "") 100 ∈ seen then fuseDedup rest seen
    else r :: fuseDedup rest (strTake (r.content.getD "") 100 :: seen)

/-- Sort key of `_fuse_results`: descending by `result.get('score', 0)`. -/
def execHitGE (a b : ExecHit) : Prop := b.score.getD 0 ≤ a.score.getD 0

instance : DecidableRel execHitGE :=
  fun a b => inferInstanceAs (Decidable (b.score.getD 0 ≤ a.score.getD 0))

/-- Embedding of `_fuse_results` (with the default `enable_result_fusion = True`). -/
def fuseResults (results : List ExecHit) : List ExecHit :=
  (fuseDedup results []).insertionSort execHitGE

/-- Embedding of `execute_decomposed_query`: run the plan from a fresh context and fuse
the accumulated results. -/
def executeDecomposedQuery (retrieve : String → Except String (List ExecHit))
    (d : DecompositionResult) : Except String (List ExecHit) :=
  (execPlan retrieve d.sub_queries d.execution_plan 0 ([], [])).map (fun st => fuseResults st.2)

/-! ### Result synthesizer (`ResultSynthesizer`, rule-based path — no LLM)

The original question enters only the LLM prompts, so the rule-based
synthesizer is a function of the decomposition and the per-sub-query results
alone. `none` models an uncaught `IndexError` from
`decomposition.sub_queries[query_idx]`. -/

/-- Embedding of `sub_results : {query_idx: results}`. -/
abbrev SubResults := List (Int × List ExecHit)

/-- Python `str.rfind(sub)`: last start index of `sub`, `-1` when absent. -/
def pyRfind (hay needle : List Char) : Int :=
  match ((List.range (hay.length + 1)).filter
      (fun i => needle.isPrefixOf (hay.drop i))).getLast? with
  | some i => (i : Int)
  | none => -1

/-- The smart truncation of `_rule_generate_simple_answer`: contents longer
than 500 characters are cut at the last sentence end (`。` or `. `) when it
lies after position 300, else hard-cut with an ellipsis. -/
def truncContent (content : String) : String :=
  if 500 < content.length then
    if 300 < max (pyRfind (content.data.take 500) "。".data)
        (pyRfind (content.data.take 500) ". ".data) then
      ⟨content.data.take ((max (pyRfind (content.data.take 500) "。".data)
        (pyRfind (content.data.take 500) ". ".data)).toNat + 1)⟩
    else ⟨content.data.take 500⟩ ++ "..."
  else content

/-- Embedding of `_rule_generate_simple_answer`: join the stripped, truncated contents of
the first three results, or apologize. -/
def ruleGenerateSimpleAnswer (results : List ExecHit) : String :=
  if ((results.take 3).filterMap (fun r =>
      if (r.content.getD "").trim ≠ "" then some (truncContent ((r.content.getD "").trim))
      else none)) ≠ [] then
    String.intercalate "\n\n" ((results.take 3).filterMap (fun r =>
      if (r.content.getD "").trim ≠ "" then some (truncContent ((r.content.getD "").trim))
      else none))
  else "抱歉，没有找到相关信息。"

/-- Embedding of `_generate_simple_answer` on the rule-based path. -/
def generateSimpleAnswer (results : List ExecHit) : String :=
  if results = [] then "抱歉，没有找到相关信息。"
  else ruleGenerateSimpleAnswer results

/-- Embedding of `_extract_key_content`: join 200-character snippets of the first two
non-empty contents with `；`. -/
def extractKeyContent (results : List ExecHit) : String :=
  if results = [] then "未找到相关信息"
  else
    if ((results.take 2).filterMap (fun r =>
        if r.content.getD "" ≠ "" then
          (if (strTake (r.content.getD "") 200).trim ≠ ""
            then some ((strTake (r.content.getD "") 200).trim) else none)
        else none)) ≠ [] then
      String.intercalate "；" ((results.take 2).filterMap (fun r =>
        if r.content.getD "" ≠ "" then
          (if (strTake (r.content.getD "") 200).trim ≠ ""
            then some ((strTake (r.content.getD "") 200).trim) else none)
        else none))
    else "未找到相关信息"

/-- One iteration of the `for query_idx in decomposition.execution_plan[:-1]`
loop of `_synthesize_comparative_results`; `sub_queries[query_idx]` is
indexed before the results are inspected, so a bad index fails even when the
results are empty. -/
def synthCmpStep (d : DecompositionResult) (srs : SubResults)
    (acc : Option (List String)) (qidx : Int) : Option (List String) :=
  match acc with
  | none => none
  | some parts =>
    match dictFind srs qidx with
    | none => some parts
    | some results =>
      match pyIndex d.sub_queries qidx with
      | none => none
      | some sq =>
        if results ≠ [] then
          some (parts ++ ["关于" ++ sq.intent ++ "：" ++ extractKeyContent results])
        else some parts

/-- Embedding of `_synthesize_comparative_results`: describe every compared object, then
append the comparison content of the plan's last sub-query. -/
def synthComparative (d : DecompositionResult) (srs : SubResults) : Option (List String) :=
  match d.execution_plan.dropLast.foldl (synthCmpStep d srs) (some []) with
  | none => none
  | some parts =>
    match d.execution_plan.getLast? with
    | none => some parts
    | some lastIdx =>
      match dictFind srs lastIdx with
      | none => some parts
      | some comparison_results =>
        if comparison_results ≠ [] then
          some (parts ++ ["比较分析：" ++ extractKeyContent comparison_results])
        else some parts

/-- One iteration of `_synthesize_multi_aspect_results` (guarded by
`query_idx < len(sub_queries)`, which negative indices pass). -/
def synthMAStep (d : DecompositionResult) (srs : SubResults)
    (acc : Option (List String)) (qidx : Int) : Option (List String) :=
  match acc with
  | none => none
  | some parts =>
    match dictFind srs qidx with
    | none => some parts
    | some results =>
      if qidx < (d.sub_queries.length : Int) then
        match pyIndex d.sub_queries qidx with
        | none => none
        | some sq =>
          if results ≠ [] then
            some (parts ++ [sq.intent ++ "：" ++ extractKeyContent results])
          else some parts
      else some parts

/-- Embedding of `_synthesize_multi_aspect_results`. -/
def synthMultiAspect (d : DecompositionResult) (srs : SubResults) : Option (List String) :=
  d.execution_plan.foldl (synthMAStep d srs) (some [])

/-- One iteration of `_synthesize_general_results` (never indexes
`sub_queries`). -/
def synthGenStep (srs : SubResults) (parts : List String) (qidx : Int) : List String :=
  match dictFind srs qidx with
  | none => parts
  | some results =>
    if results ≠ [] then parts ++ [extractKeyContent results] else parts

/-- Embedding of `_synthesize_general_results`. -/
def synthGeneral (srs : SubResults) (plan : List Int) : List String :=
  plan.foldl (synthGenStep srs) []

/-- Embedding of `_rule_based_synthesize`: dispatch on intent type and join the parts, or
apologize when nothing was found. -/
def ruleBasedSynthesize (d : DecompositionResult) (srs : SubResults) : Option String :=
  (if d.intent.intent_type = "comparative" then synthComparative d srs
   else if d.intent.intent_type = "multi_aspect" then synthMultiAspect d srs
   else some (synthGeneral srs d.execution_plan)).map
    (fun parts =>
      if parts ≠ [] then String.intercalate "\n\n" parts
      else "抱歉，没有找到相关信息来回答您的问题。")

/-- Embedding of `synthesize_results` on the rule-based path: empty dict → apology; a
single sub-query → simple answer from its results; otherwise rule-based
multi-result synthesis. -/
def synthesizeResults (d : DecompositionResult) (srs : SubResults) : Option String :=
  if srs = [] then some "抱歉，没有找到相关信息。"
  else if srs.length = 1 then some (generateSimpleAnswer ((srs.headD (0, [])).2))
  else ruleBasedSynthesize d srs

/-! ### Planner invariants -/

/-- The visited set is the reverse of the emitted plan: both start empty and
are always extended together (`visited.add(node)` / `execution_plan.append(node)`). -/
theorem dfsA_visited_reverse (graph : List (List Int)) :
    ∀ fuel temp l (vp : PlanSt), vp.1 = vp.2.reverse →
      (dfsA graph fuel temp l vp).1 = (dfsA graph fuel temp l vp).2.reverse := by
  intro fuel
  induction fuel with
  | zero => intro temp l vp h; simpa [dfsA] using h
  | succ fuel ih =>
    intro temp l vp h
    cases l with
    | nil => simpa [dfsA] using h
    | cons node rest =>
      by_cases hmem : node ∈ temp ∨ node ∈ vp.1
      · rw [dfsA, if_pos hmem]; exact ih temp rest vp h
      · rw [dfsA, if_neg hmem]
        apply ih
        have h2 := ih (node :: temp) (validDeps graph node) vp h
        simp [h2]

/-- Every traversal only prepends fresh nodes to the visited set: the new
prefix has no duplicates, avoids the recursion stack `temp`, and avoids the
previously visited nodes.  (A node is added to `visited` only in the branch
where it is in neither set, and while it is being processed it sits in
`temp`, so no nested call can add it.) -/
theorem dfsA_visited_extend (graph : List (List Int)) :
    ∀ fuel temp l (vp : PlanSt),
      ∃ fresh, (dfsA graph fuel temp l vp).1 = fresh ++ vp.1 ∧ fresh.Nodup ∧
        ∀ x ∈ fresh, x ∉ temp ∧ x ∉ vp.1 := by
  intro fuel
  induction fuel with
  | zero => intro temp l vp; exact ⟨[], by simp [dfsA]⟩
  | succ fuel ih =>
    intro temp l vp
    cases l with
    | nil => exact ⟨[], by simp [dfsA]⟩
    | cons node rest =>
      by_cases hmem : node ∈ temp ∨ node ∈ vp.1
      · rw [dfsA, if_pos hmem]; exact ih temp rest vp
      · rw [dfsA, if_neg hmem]
        obtain ⟨f1, hf1, hnd1, hfr1⟩ := ih (node :: temp) (validDeps graph node) vp
        obtain ⟨f2, hf2, hnd2, hfr2⟩ :=
          ih temp rest (node :: (dfsA graph fuel (node :: temp) (validDeps graph node) vp).1,
            (dfsA graph fuel (node :: temp) (validDeps graph node) vp).2 ++ [node])
        push_neg at hmem
        refine ⟨f2 ++ node :: f1, ?_, ?_, ?_⟩
        · simpa [hf1] using hf2
        · refine List.nodup_append.2 ⟨hnd2, ?_, ?_⟩
          · refine List.nodup_cons.2 ⟨fun hc => ?_, hnd1⟩
            exact (hfr1 node hc).1 (List.mem_cons_self node temp)
          · intro x hx2 hx1
            have := (hfr2 x hx2).2
            rw [hf1] at this
            rcases List.mem_cons.1 hx1 with rfl | hx1
            · exact this (List.mem_cons_self _ _)
            · exact this (List.mem_cons_of_mem _ (List.mem_append_left _ hx1))
        · intro x hx
          rcases List.mem_append.1 hx with hx2 | hx1
          · have h2 := hfr2 x hx2
            refine ⟨h2.1, fun hv => ?_⟩
            exact h2.2 (List.mem_cons_of_mem _ (by rw [hf1]; exact List.mem_append_right _ hv))
          · rcases List.mem_cons.1 hx1 with rfl | hx1
            · exact hmem
            · have h1 := hfr1 x hx1
              exact ⟨fun ht => h1.1 (List.mem_cons_of_mem _ ht), h1.2⟩

/-- Visited nodes are never removed. -/
theorem dfsA_visited_mono (graph : List (List Int)) (fuel : Nat) (temp l : List Int)
    (vp : PlanSt) : vp.1 ⊆ (dfsA graph fuel temp l vp).1 := by
  obtain ⟨fresh, hf, -, -⟩ := dfsA_visited_extend graph fuel temp l vp
  rw [hf]
  exact fun x hx => List.mem_append_right _ hx

/-- With fuel exceeding the worklist length, every worklist node ends up on
the recursion stack or in the visited set (the main loop's nodes are always
processed or found already visited). -/
theorem dfsA_complete (graph : List (List Int)) :
    ∀ fuel temp l (vp : PlanSt), l.length < fuel →
      ∀ x ∈ l, x ∈ temp ∨ x ∈ (dfsA graph fuel temp l vp).1 := by
  intro fuel
  induction fuel with
  | zero => intro temp l vp h; omega
  | succ fuel ih =>
    intro temp l vp h x hx
    cases l with
    | nil => cases hx
    | cons node rest =>
      have hrest : rest.length < fuel := by simpa using h
      by_cases hmem : node ∈ temp ∨ node ∈ vp.1
      · rw [dfsA, if_pos hmem]
        rcases List.mem_cons.1 hx with rfl | hx
        · rcases hmem with ht | hv
          · exact Or.inl ht
          · exact Or.inr (dfsA_visited_mono graph fuel temp rest vp hv)
        · exact ih temp rest vp hrest x hx
      · rw [dfsA, if_neg hmem]
        rcases List.mem_cons.1 hx with rfl | hx
        · refine Or.inr (dfsA_visited_mono graph fuel temp rest _ ?_)
          exact List.mem_cons_self _ _
        · exact ih temp rest _ hrest x hx

/-- Every member of a list of naturals is bounded by their right max-fold. -/
theorem le_foldr_max (l : List Nat) (x : Nat) (h : x ∈ l) : x ≤ l.foldr Nat.max 0 := by
  induction l with
  | nil => cases h
  | cons a t ih =>
    rcases List.mem_cons.1 h with rfl | h
    · exact Nat.le_max_left _ _
    · exact le_trans (ih h) (Nat.le_max_right _ _)

/-- No node has more valid dependencies than the longest dependency list. -/
theorem validDeps_length_le (graph : List (List Int)) (node : Int) :
    (validDeps graph node).length ≤ maxDeps graph := by
  rw [validDeps, maxDeps]
  split
  · next h =>
    refine le_trans (List.length_filter_le _ _) ?_
    exact le_foldr_max _ _ (List.mem_map.2 ⟨_, List.get_mem _ _ _, rfl⟩)
  · simp

/-- Invalid nodes (`node < 0` or `node ≥ len`) have no dependency list. -/
theorem validDeps_invalid (graph : List (List Int)) (node : Int)
    (h : ¬ (0 ≤ node ∧ node.toNat < graph.length)) : validDeps graph node = [] := by
  rw [validDeps, dif_neg h]
  rfl

/-- Descending into a fresh valid node strictly shrinks the count of valid
nodes off the stack. -/
theorem cntValid_lt (n : Nat) (node : Int) (temp : List Int)
    (h0 : 0 ≤ node) (h1 : node.toNat < n) (h2 : node ∉ temp) :
    cntValid n (node :: temp) < cntValid n temp := by
  apply Finset.card_lt_card
  rw [Finset.ssubset_iff_of_subset]
  · refine ⟨node.toNat, ?_, ?_⟩
    · rw [Finset.mem_filter, Finset.mem_range]
      refine ⟨h1, ?_⟩
      rw [Int.toNat_of_nonneg h0]
      exact h2
    · rw [Finset.mem_filter]
      rintro ⟨-, hmem⟩
      rw [Int.toNat_of_nonneg h0] at hmem
      exact hmem (List.mem_cons_self _ _)
  · refine Finset.monotone_filter_right _ ?_
    intro i hi
    exact fun hc => hi (List.mem_cons_of_mem _ hc)

/-- Descending into an invalid node leaves the count unchanged. -/
theorem cntValid_invalid (n : Nat) (node : Int) (temp : List Int)
    (h : ¬ (0 ≤ node ∧ node.toNat < n)) : cntValid n (node :: temp) = cntValid n temp := by
  unfold cntValid
  congr 1
  apply Finset.filter_congr
  intro i hi
  rw [Finset.mem_range] at hi
  have hne : (i : Int) ≠ node := by omega
  simp [List.mem_cons, hne]

/-- Fuel adequacy: beyond `|worklist| + cntValid * (maxDeps + 1)` units the
traversal's value no longer depends on the fuel, i.e. the fuelled embedding
computes the fixpoint of the Python recursion. -/
theorem dfsA_fuel_stable (graph : List (List Int)) :
    ∀ (fuel fuel2 : Nat) (temp l : List Int) (vp : PlanSt),
      l.length + cntValid graph.length temp * (maxDeps graph + 1) ≤ fuel → fuel ≤ fuel2 →
      dfsA graph fuel temp l vp = dfsA graph fuel2 temp l vp := by
  intro fuel
  induction fuel with
  | zero =>
    intro fuel2 temp l vp hb _
    have hl : l = [] := by
      cases l with
      | nil => rfl
      | cons a t => simp at hb
    subst hl
    cases fuel2 <;> rfl
  | succ f ih =>
    intro fuel2 temp l vp hb hle
    obtain ⟨f2, rfl⟩ : ∃ f2, fuel2 = f2 + 1 := ⟨fuel2 - 1, by omega⟩
    cases l with
    | nil => rfl
    | cons node rest =>
      rw [dfsA, dfsA]
      simp only [List.length_cons] at hb
      have hrest : rest.length + cntValid graph.length temp * (maxDeps graph + 1) ≤ f := by
        omega
      by_cases hmem : node ∈ temp ∨ node ∈ vp.1
      · rw [if_pos hmem, if_pos hmem]
        exact ih f2 temp rest vp hrest (by omega)
      · rw [if_neg hmem, if_neg hmem]
        have hb2 : (validDeps graph node).length
            + cntValid graph.length (node :: temp) * (maxDeps graph + 1) ≤ f := by
          by_cases hval : 0 ≤ node ∧ node.toNat < graph.length
          · have hcnt : cntValid graph.length (node :: temp) < cntValid graph.length temp :=
              cntValid_lt _ _ _ hval.1 hval.2 (fun hc => hmem (Or.inl hc))
            have hdeps : (validDeps graph node).length ≤ maxDeps graph :=
              validDeps_length_le graph node
            have hmul : (cntValid graph.length (node :: temp) + 1) * (maxDeps graph + 1)
                ≤ cntValid graph.length temp * (maxDeps graph + 1) :=
              Nat.mul_le_mul_right _ hcnt
            rw [Nat.succ_mul] at hmul
            omega
          · rw [validDeps_invalid graph node hval, cntValid_invalid _ _ _ hval]
            simp only [List.length_nil]
            omega
        have hinner := ih f2 (node :: temp) (validDeps graph node) vp hb2 (by omega)
        rw [hinner]
        exact ih f2 temp rest _ hrest (by omega)

/-- C2: for every list of `SubQuery` — including lists whose `depends_on`
relation is cyclic — the execution planner is a total function (the embedding
terminates by construction) and its plan contains every valid sub-query index
exactly once: no index is dropped and none is duplicated.  A node re-entered
while on the traversal stack (`temp`) is skipped, which is what breaks
cycles. -/
theorem execution_plan_count_eq_one (sqs : List SubQuery) (i : Nat) (h : i < sqs.length) :
    (generateExecutionPlan sqs).count ((i : Nat) : Int) = 1 := by
  have hne : ¬ (sqs.isEmpty = true) := by
    cases sqs with
    | nil => simp at h
    | cons a l => simp
  rw [generateExecutionPlan, if_neg hne]
  set graph := sqs.map SubQuery.depends_on with hg
  set fuel := (sqs.length + 1) * (maxDeps graph + 2) with hfuel
  set roots := nodesByPriority sqs with hroots
  set out := dfsA graph fuel [] roots ([], []) with hout
  have hlen : roots.length = sqs.length := by
    simp [hroots, nodesByPriority]
  have hflt : roots.length < fuel := by
    rw [hlen, hfuel]
    have h1 : sqs.length + 1 ≤ (sqs.length + 1) * (maxDeps graph + 2) :=
      Nat.le_mul_of_pos_right _ (by omega)
    omega
  have hmem : ((i : Nat) : Int) ∈ roots := by
    rw [hroots]
    unfold nodesByPriority
    rw [List.mem_insertionSort]
    exact List.mem_map.2 ⟨i, List.mem_range.2 h, rfl⟩
  have hvis : ((i : Nat) : Int) ∈ out.1 := by
    rcases dfsA_complete graph fuel [] roots ([], []) hflt _ hmem with hc | hc
    · cases hc
    · exact hc
  have hnd : out.1.Nodup := by
    obtain ⟨fresh, hf, hnd, -⟩ := dfsA_visited_extend graph fuel [] roots ([], [])
    rw [hout, hf]
    simpa using hnd
  have hrev : out.1 = out.2.reverse := dfsA_visited_reverse graph fuel [] roots ([], []) rfl
  have hcnt : out.1.count ((i : Nat) : Int) = 1 := List.count_eq_one_of_mem hnd hvis
  rw [hrev] at hcnt
  simpa [List.count_reverse] using hcnt

/-- Witness for C2 at the spec's own example of a dependency cycle: sub-query
0 depends on 1 and sub-query 1 depends on 0; index 0 still appears exactly
once in the plan. -/
theorem execution_plan_count_eq_one_witness :
    0 < ([⟨"a", "", 1, [1], false⟩, ⟨"b", "", 1, [0], false⟩] : List SubQuery).length ∧
      (generateExecutionPlan [⟨"a", "", 1, [1], false⟩, ⟨"b", "", 1, [0], false⟩]).count
        ((0 : Nat) : Int) = 1 :=
  ⟨by decide, execution_plan_count_eq_one [⟨"a", "", 1, [1], false⟩, ⟨"b", "", 1, [0], false⟩]
    0 (by decide)⟩

/-- C1 (failing input): the planner's range check is `dep < len(sub_queries)`
only, so the negative out-of-range dependency `-1` of the single sub-query is
traversed and emitted into the plan.  The result `[-1, 0]` is not a
permutation of `0..0`, contradicting both the permutation sentence and the
"out-of-range dependency indices are ignored" sentence of the spec. -/
theorem planner_negative_dep_emitted :
    generateExecutionPlan [⟨"q", "simple", 1, [-1], false⟩] = [-1, 0] ∧
      ¬ (∀ x ∈ generateExecutionPlan [⟨"q", "simple", 1, [-1], false⟩], 0 ≤ x) := by
  decide

/-! ### Intent analysis and decomposition theorems -/

/-- C5: on the rule-based path with the default threshold 6.0, the stored
complexity score equals the clamped sum of the length contribution (capped at
3 = `len/50` capped), 1.5 per comparison/analysis keyword present, 1.0 per
multi-part connective present and 0.5 per question mark (half- or full-width);
the stored score lies in `[0, 10]`; and `requires_decomposition` holds iff
the clamped score reaches 6.  (The code compares the unclamped sum, which is
equivalent for any threshold not exceeding the clamp bound 10.) -/
theorem rule_based_intent_analysis_spec (q : String) :
    (ruleBasedIntentAnalysis 6 q).complexity_score
        = min (min ((q.length : ℚ) / 50) 3
            + (3 / 2) * ((complexKeywords.filter (fun kw => strContains q kw)).length : ℚ)
            + ((connectorWords.filter (fun c => strContains q c)).length : ℚ)
            + (((q.data.count '?' : ℚ)) + ((q.data.count '？' : ℚ))) * (1 / 2)) 10
      ∧ 0 ≤ (ruleBasedIntentAnalysis 6 q).complexity_score
      ∧ (ruleBasedIntentAnalysis 6 q).complexity_score ≤ 10
      ∧ ((ruleBasedIntentAnalysis 6 q).requires_decomposition
          ↔ 6 ≤ (ruleBasedIntentAnalysis 6 q).complexity_score) := by
  have hcs : (ruleBasedIntentAnalysis 6 q).complexity_score = min (rawComplexity q) 10 := rfl
  have hreq : (ruleBasedIntentAnalysis 6 q).requires_decomposition
      = decide (6 ≤ rawComplexity q) := rfl
  have hraw0 : (0 : ℚ) ≤ rawComplexity q := by
    rw [rawComplexity]
    have hm : (0 : ℚ) ≤ min ((q.length : ℚ) / 50) 3 := le_min (by positivity) (by norm_num)
    refine add_nonneg (add_nonneg (add_nonneg (add_nonneg hm ?_) ?_) ?_) ?_ <;> positivity
  refine ⟨?_, ?_, ?_, ?_⟩
  · rw [hcs, rawComplexity]
    congr 1
    ring
  · rw [hcs]
    exact le_min hraw0 (by norm_num)
  · rw [hcs]
    exact min_le_right _ _
  · rw [hreq, hcs]
    simp only [decide_eq_true_eq]
    constructor
    · intro h
      exact le_min h (by norm_num)
    · intro h
      exact le_trans h (min_le_left _ _)

/-- C6: whenever the rule-based intent does not require decomposition, the
decomposer returns exactly one sub-query whose text is the input question,
with an empty dependency list, and the execution plan `[0]`. -/
theorem no_decomposition_single_subquery (threshold : ℚ) (q : String)
    (h : (ruleBasedIntentAnalysis threshold q).requires_decomposition = false) :
    (analyzeAndDecompose threshold q).sub_queries = [⟨q, "simple", 1, [], false⟩] ∧
      (analyzeAndDecompose threshold q).execution_plan = [0] := by
  rw [analyzeAndDecompose, if_pos (by simp [h])]
  exact ⟨rfl, rfl⟩

/-- Witness for C6 at the question `"你好"` (raw complexity `1/25 < 6`). -/
theorem no_decomposition_single_subquery_witness :
    (ruleBasedIntentAnalysis 6 "你好").requires_decomposition = false ∧
      ((analyzeAndDecompose 6 "你好").sub_queries = [⟨"你好", "simple", 1, [], false⟩] ∧
        (analyzeAndDecompose 6 "你好").execution_plan = [0]) := by
  have hraw : rawComplexity "你好" = 1 / 25 := by
    rw [rawComplexity]
    rw [show (complexKeywords.filter (fun kw => strContains "你好" kw)).length = 0 from by decide]
    rw [show (connectorWords.filter (fun c => strContains "你好" c)).length = 0 from by decide]
    rw [show ("你好".data.count '?') = 0 from by decide]
    rw [show ("你好".data.count '？') = 0 from by decide]
    rw [show ("你好".length) = 2 from by decide]
    norm_num [min_def]
  have hreq : (ruleBasedIntentAnalysis 6 "你好").requires_decomposition = false := by
    have h0 : (ruleBasedIntentAnalysis 6 "你好").requires_decomposition
        = decide (6 ≤ rawComplexity "你好") := rfl
    rw [h0, hraw]
    simp only [decide_eq_false_iff_not]
    norm_num
  exact ⟨hreq, no_decomposition_single_subquery 6 "你好" hreq⟩

/-- C9 (counterexample): on the exact question `"比较A和B的优缺点"` the
rule-based complexity is `67/25 = 2.68 < 6`, so no decomposition happens: the
decomposer yields exactly one sub-query, not at least three. -/
theorem comparative_scenario_counterexample :
    (analyzeAndDecompose 6 "比较A和B的优缺点").sub_queries.length = 1 ∧
      ¬ 3 ≤ (analyzeAndDecompose 6 "比较A和B的优缺点").sub_queries.length := by
  have hraw : rawComplexity "比较A和B的优缺点" = 67 / 25 := by
    rw [rawComplexity]
    rw [show (complexKeywords.filter
        (fun kw => strContains "比较A和B的优缺点" kw)).length = 1 from by decide]
    rw [show (connectorWords.filter
        (fun c => strContains "比较A和B的优缺点" c)).length = 1 from by decide]
    rw [show ("比较A和B的优缺点".data.count '?') = 0 from by decide]
    rw [show ("比较A和B的优缺点".data.count '？') = 0 from by decide]
    rw [show ("比较A和B的优缺点".length) = 9 from by decide]
    norm_num [min_def]
  have hreq : (ruleBasedIntentAnalysis 6 "比较A和B的优缺点").requires_decomposition = false := by
    have h0 : (ruleBasedIntentAnalysis 6 "比较A和B的优缺点").requires_decomposition
        = decide (6 ≤ rawComplexity "比较A和B的优缺点") := rfl
    rw [h0, hraw]
    simp only [decide_eq_false_iff_not]
    norm_num
  rw [analyzeAndDecompose, if_pos (by simp [hreq])]
  exact ⟨rfl, by norm_num⟩

/-- C9 (amended): for a comparison question that does reach the threshold and
has two multi-character key concepts (`cmpQuery`, raw complexity
`489/50 = 9.78 ≥ 6`), the rule-based decomposer yields three sub-queries —
one per compared concept and a final comparison depending on both, with
`context_needed` — and the planner places the comparison sub-query last. -/
theorem comparative_decomposition_threshold_met :
    (analyzeAndDecompose 6 cmpQuery).sub_queries.length = 3 ∧
      (analyzeAndDecompose 6 cmpQuery).sub_queries.get? 2 =
        some ⟨"Python语言和Java语言的比较分析", "比较分析两者的差异", 2, [0, 1], true⟩ ∧
      (analyzeAndDecompose 6 cmpQuery).execution_plan = [0, 1, 2] := by
  have hraw : rawComplexity cmpQuery = 489 / 50 := by
    rw [rawComplexity]
    rw [show (complexKeywords.filter (fun kw => strContains cmpQuery kw)).length = 5 from by decide]
    rw [show (connectorWords.filter (fun c => strContains cmpQuery c)).length = 0 from by decide]
    rw [show (cmpQuery.data.count '?') = 0 from by decide]
    rw [show (cmpQuery.data.count '？') = 3 from by decide]
    rw [show (cmpQuery.length) = 39 from by decide]
    norm_num [min_def]
  have hreq : (ruleBasedIntentAnalysis 6 cmpQuery).requires_decomposition = true := by
    have h0 : (ruleBasedIntentAnalysis 6 cmpQuery).requires_decomposition
        = decide (6 ≤ rawComplexity cmpQuery) := rfl
    rw [h0, hraw]
    norm_num
  rw [analyzeAndDecompose, if_neg (by simp [hreq])]
  refine ⟨?_, ?_, ?_⟩ <;> decide

/-! ### Merge-step lemmas and theorem (C3) -/

/-- Deduplication returns a sublist of its input. -/
theorem dedupByContent_sublist : ∀ (l : List (RawHit × ℚ)) (seen : List String),
    List.Sublist (dedupByContent l seen) l := by
  intro l
  induction l with
  | nil => intro seen; simp [dedupByContent]
  | cons p rest ih =>
    intro seen
    rw [dedupByContent]
    by_cases h : p.1.content ∈ seen
    · rw [if_pos h]
      exact (ih seen).trans (List.sublist_cons_self p rest)
    · rw [if_neg h]
      exact (ih _).cons₂ p

/-- The surviving contents are pairwise distinct and disjoint from `seen`. -/
theorem dedupByContent_contents : ∀ (l : List (RawHit × ℚ)) (seen : List String),
    ((dedupByContent l seen).map (fun p => p.1.content)).Nodup ∧
      ∀ p ∈ dedupByContent l seen, p.1.content ∉ seen := by
  intro l
  induction l with
  | nil => intro seen; simp [dedupByContent]
  | cons q rest ih =>
    intro seen
    rw [dedupByContent]
    by_cases h : q.1.content ∈ seen
    · rw [if_pos h]
      exact ih seen
    · rw [if_neg h]
      obtain ⟨hnd, hns⟩ := ih (q.1.content :: seen)
      refine ⟨?_, ?_⟩
      · rw [List.map_cons, List.nodup_cons]
        refine ⟨fun hc => ?_, hnd⟩
        obtain ⟨p, hp, hpc⟩ := List.mem_map.1 hc
        exact hns p hp (by rw [hpc]; exact List.mem_cons_self _ _)
      · intro p hp
        rcases List.mem_cons.1 hp with rfl | hp
        · exact h
        · exact fun hmem => hns p hp (List.mem_cons_of_mem _ hmem)

/-- On a descendingly sorted list, every content not yet `seen` survives
deduplication through a representative of the same content whose combined
score is at least as large (the first, highest-scoring occurrence). -/
theorem dedupByContent_covers : ∀ (l : List (RawHit × ℚ)) (seen : List String),
    l.Pairwise scoreGE → ∀ q ∈ l, q.1.content ∉ seen →
      ∃ p ∈ dedupByContent l seen, p.1.content = q.1.content ∧ q.2 ≤ p.2 := by
  intro l
  induction l with
  | nil => intro seen _ q hq; cases hq
  | cons p0 rest ih =>
    intro seen hpw q hq hns
    obtain ⟨hp0, hpw2⟩ := List.pairwise_cons.1 hpw
    rw [dedupByContent]
    by_cases h : p0.1.content ∈ seen
    · rw [if_pos h]
      rcases List.mem_cons.1 hq with rfl | hq
      · exact absurd h hns
      · exact ih seen hpw2 q hq hns
    · rw [if_neg h]
      rcases List.mem_cons.1 hq with rfl | hq
      · exact ⟨q, List.mem_cons_self _ _, rfl, le_refl _⟩
      · by_cases hc : q.1.content = p0.1.content
        · exact ⟨p0, List.mem_cons_self _ _, hc.symm, hp0 q hq⟩
        · obtain ⟨p, hp, hpc, hple⟩ := ih (p0.1.content :: seen) hpw2 q hq (fun hmem => by
            rcases List.mem_cons.1 hmem with he | hmem
            · exact hc he
            · exact hns hmem)
          exact ⟨p, List.mem_cons_of_mem _ hp, hpc, hple⟩

/-- C3: in the hybrid retriever's merge step, (i) every surviving hit carries
the combined score `retrieval_score * (0.7 + 0.3 * priority_score)` computed
from its own fields (priority defaulting to 0.5 and ×0.3-discounted for
`references` content); (ii) surviving contents are pairwise distinct, so
merging the same chunk twice leaves exactly one survivor (idempotent
deduplication); (iii) the output is sorted descending by combined score; and
(iv) every input hit is represented by a survivor of the same content whose
combined score is at least its own — the kept occurrence is the
highest-scoring (first after the descending sort). -/
theorem merge_results_spec (rs : List RawHit) :
    (∀ p ∈ mergeResults rs, p.2 = combinedScore p.1)
      ∧ ((mergeResults rs).map (fun p => p.1.content)).Nodup
      ∧ (mergeResults rs).Pairwise (fun a b => b.2 ≤ a.2)
      ∧ ∀ r ∈ rs, ∃ p ∈ mergeResults rs, p.1.content = r.content ∧ combinedScore r ≤ p.2 := by
  have hsorted :
      ((rs.map (fun r => (r, combinedScore r))).insertionSort scoreGE).Pairwise scoreGE :=
    List.sorted_insertionSort scoreGE _
  refine ⟨?_, (dedupByContent_contents _ _).1, ?_, ?_⟩
  · intro p hp
    have hp2 : p ∈ (rs.map (fun r => (r, combinedScore r))).insertionSort scoreGE :=
      (dedupByContent_sublist _ _).subset hp
    rw [List.mem_insertionSort] at hp2
    obtain ⟨r, _, rfl⟩ := List.mem_map.1 hp2
    rfl
  · exact hsorted.sublist (dedupByContent_sublist _ _)
  · intro r hr
    have hq : (r, combinedScore r) ∈ (rs.map (fun s => (s, combinedScore s))).insertionSort scoreGE := by
      rw [List.mem_insertionSort]
      exact List.mem_map.2 ⟨r, hr, rfl⟩
    obtain ⟨p, hp, hpc, hple⟩ :=
      dedupByContent_covers _ [] hsorted (r, combinedScore r) hq (List.not_mem_nil _)
    exact ⟨p, hp, hpc, hple⟩

/-- Witness for C3: merging the same chunk twice; the theorem's coverage part
applies to it, and its membership hypothesis is discharged concretely. -/
theorem merge_results_spec_witness :
    (⟨"dup", none, none, none⟩ : RawHit) ∈
        ([⟨"dup", none, none, none⟩, ⟨"dup", none, none, none⟩] : List RawHit) ∧
      ∃ p ∈ mergeResults [⟨"dup", none, none, none⟩, ⟨"dup", none, none, none⟩],
        p.1.content = "dup" ∧ combinedScore ⟨"dup", none, none, none⟩ ≤ p.2 :=
  ⟨by decide,
    (merge_results_spec [⟨"dup", none, none, none⟩, ⟨"dup", none, none, none⟩]).2.2.2
      ⟨"dup", none, none, none⟩ (by decide)⟩

/-! ### Reranker lemmas and theorems (C4, C10) -/

/-- Filtering one equal-key class commutes with ordered insertion for a
key-based descending relation: the inserted element lands exactly in front of
the elements of its own class. -/
theorem filter_orderedInsert_key {α : Type} (r : α → α → Prop) [DecidableRel r] (k : α → ℚ)
    (hr : ∀ x y, r x y ↔ k y ≤ k x) (c : ℚ) (a : α) :
    ∀ l : List α,
      (l.orderedInsert r a).filter (fun x => decide (k x = c))
        = if k a = c then a :: l.filter (fun x => decide (k x = c))
          else l.filter (fun x => decide (k x = c)) := by
  intro l
  induction l with
  | nil => by_cases hac : k a = c <;> simp [List.orderedInsert, hac]
  | cons b t ih =>
    rw [List.orderedInsert]
    by_cases hab : r a b
    · rw [if_pos hab]
      by_cases hac : k a = c <;> by_cases hbc : k b = c <;>
        simp [List.filter_cons, hac, hbc]
    · rw [if_neg hab]
      have hba : ¬ k b ≤ k a := fun hle => hab ((hr a b).2 hle)
      by_cases hbc : k b = c
      · have hac : ¬ k a = c := fun hac => hba (le_of_eq (by rw [hbc, hac]))
        simp [List.filter_cons, hbc, hac, ih]
      · by_cases hac : k a = c <;> simp [List.filter_cons, hbc, hac, ih]

/-- A stable key-based descending sort leaves each equal-key class in its
original relative order. -/
theorem filter_insertionSort_key {α : Type} (r : α → α → Prop) [DecidableRel r] (k : α → ℚ)
    (hr : ∀ x y, r x y ↔ k y ≤ k x) (c : ℚ) :
    ∀ l : List α,
      (l.insertionSort r).filter (fun x => decide (k x = c))
        = l.filter (fun x => decide (k x = c)) := by
  intro l
  induction l with
  | nil => rfl
  | cons a t ih =>
    rw [List.insertionSort, filter_orderedInsert_key r k hr c a]
    by_cases hac : k a = c <;> simp [List.filter_cons, hac, ih]

/-- C4: the reranker's output is a permutation of its input (nothing dropped
or added), sorted descending by the weighted sum
`0.4*semantic + 0.3*keyword + 0.2*content_type + 0.1*position`; ties keep
their original relative order (each equal-score class is the same sublist as
in the input); and — the sub-scores being deterministic functions of the
items — reranking an already reranked list changes nothing. -/
theorem rerank_spec (sem kw pos : RRItem → ℚ) (l : List RRItem) :
    (rerank sem kw pos l).Perm l
      ∧ (rerank sem kw pos l).Pairwise
          (fun a b => rerankScore sem kw pos b ≤ rerankScore sem kw pos a)
      ∧ (∀ c : ℚ,
          (rerank sem kw pos l).filter (fun x => decide (rerankScore sem kw pos x = c))
            = l.filter (fun x => decide (rerankScore sem kw pos x = c)))
      ∧ rerank sem kw pos (rerank sem kw pos l) = rerank sem kw pos l := by
  refine ⟨List.perm_insertionSort _ _, List.sorted_insertionSort (rrGE sem kw pos) l, ?_, ?_⟩
  · intro c
    exact filter_insertionSort_key (rrGE sem kw pos) (rerankScore sem kw pos)
      (fun x y => Iff.rfl) c l
  · exact List.Sorted.insertionSort_eq (List.sorted_insertionSort _ _)

/-- C10: a missing `chunk_type` defaults to `'text'` and scores 1.0, while
any chunk type outside the documented table (`text`, `table`, `image`) gets
the fallback content-type sub-score 0.5, strictly below every documented
weight. -/
theorem content_type_default_spec (it : RRItem) (s : String) :
    (it.chunk_type = none → contentTypeScore it = 1)
      ∧ (it.chunk_type = some s → s ∉ (["text", "table", "image"] : List String) →
          contentTypeScore it = 1 / 2 ∧ ∀ w ∈ contentTypeWeights, (1 : ℚ) / 2 < w.2) := by
  constructor
  · intro h
    rw [contentTypeScore, h]
    rfl
  · intro h hs
    simp only [List.mem_cons, List.not_mem_nil, or_false, not_or] at hs
    obtain ⟨h1, h2, h3⟩ := hs
    constructor
    · rw [contentTypeScore, h]
      simp [contentTypeWeights, List.lookup, Option.getD,
        beq_eq_false_iff_ne.mpr h1, beq_eq_false_iff_ne.mpr h2, beq_eq_false_iff_ne.mpr h3]
    · intro w hw
      fin_cases hw <;> norm_num

/-- Witness for C10 at an undocumented chunk type `"code"`. -/
theorem content_type_default_spec_witness :
    (⟨"", none, some "code", none, none⟩ : RRItem).chunk_type = some "code" ∧
      "code" ∉ (["text", "table", "image"] : List String) ∧
      (contentTypeScore ⟨"", none, some "code", none, none⟩ = 1 / 2 ∧
        ∀ w ∈ contentTypeWeights, (1 : ℚ) / 2 < w.2) :=
  ⟨rfl, by decide,
    (content_type_default_spec ⟨"", none, some "code", none, none⟩ "code").2 rfl (by decide)⟩

/-! ### Executor and synthesizer lemmas and theorems (C7, C8) -/

/-- A Python index valid for the list (within `[-len, len)`) dereferences. -/
theorem pyIndex_some {α : Type} (l : List α) (i : Int) (h1 : -(l.length : Int) ≤ i)
    (h2 : i < (l.length : Int)) : ∃ a, pyIndex l i = some a := by
  have hc : 0 ≤ pyNorm l.length i ∧ (pyNorm l.length i).toNat < l.length := by
    refine ⟨?_, ?_⟩ <;> (simp only [pyNorm]; split <;> omega)
  exact ⟨_, dif_pos hc⟩

/-- A successful dict lookup comes from a member entry. -/
theorem dictFind_mem {β : Type} {m : List (Int × β)} {i : Int} {v : β}
    (h : dictFind m i = some v) : (i, v) ∈ m := by
  rw [dictFind] at h
  obtain ⟨p, hp, hpv⟩ := Option.map_eq_some'.1 h
  have hmem := List.mem_of_find?_eq_some hp
  have hkey : p.1 = i := by simpa using List.find?_some hp
  obtain ⟨a, b⟩ := p
  simp only at hkey hpv
  rw [hkey, hpv] at hmem
  exact hmem

/-- A step whose index is not below `-len` never raises. -/
theorem execStep_ok (r : String → Except String (List ExecHit)) (sqs : List SubQuery)
    (st : ExecCtx × List ExecHit) (stepIdx : Nat) (qidx : Int)
    (h : -(sqs.length : Int) ≤ qidx) :
    ∃ st2, execStep r sqs st stepIdx qidx = Except.ok st2 := by
  by_cases hge : (sqs.length : Int) ≤ qidx
  · exact ⟨st, by rw [execStep, if_pos hge]⟩
  · obtain ⟨sq, hsq⟩ := pyIndex_some sqs qidx h (by omega)
    cases hr : r (buildQueryContext st.1 sq) with
    | error e => exact ⟨st, by rw [execStep, if_neg hge, hsq]; simp only [hr]⟩
    | ok results =>
      exact ⟨((qidx, ⟨sq.query, results, stepIdx⟩) :: st.1, st.2 ++ results),
        by rw [execStep, if_neg hge, hsq]; simp only [hr]⟩

/-- A plan whose indices are all at least `-len` runs to completion for every
retriever (failed retrievals are caught step-locally). -/
theorem execPlan_ok : ∀ (l : List Int) (r : String → Except String (List ExecHit))
    (sqs : List SubQuery) (stepIdx : Nat) (st : ExecCtx × List ExecHit),
    (∀ i ∈ l, -(sqs.length : Int) ≤ i) →
    ∃ st2, execPlan r sqs l stepIdx st = Except.ok st2 := by
  intro l
  induction l with
  | nil => intro r sqs s st _; exact ⟨st, rfl⟩
  | cons qidx rest ih =>
    intro r sqs s st h
    obtain ⟨st2, hst2⟩ := execStep_ok r sqs st s qidx (h qidx (List.mem_cons_self _ _))
    obtain ⟨st3, hst3⟩ := ih r sqs (s + 1) st2 (fun i hi => h i (List.mem_cons_of_mem _ hi))
    exact ⟨st3, by rw [execPlan, hst2]; exact hst3⟩

/-- C7: (i) when the retrieval call of one step raises, the executor catches
the exception and continues with the remaining steps from an unchanged state,
so the failed step contributes no execution-context entry and no results;
(ii) for every decomposition whose plan indices are valid for its sub-query
list, the executor returns normally for every retriever — per-step retrieval
exceptions never abort the plan or propagate. -/
theorem executor_error_handling :
    (∀ (r : String → Except String (List ExecHit)) (sqs : List SubQuery) (rest : List Int)
        (stepIdx : Nat) (qidx : Int) (st : ExecCtx × List ExecHit) (sq : SubQuery) (e : String),
      ¬ ((sqs.length : Int) ≤ qidx) → pyIndex sqs qidx = some sq →
        r (buildQueryContext st.1 sq) = Except.error e →
        execPlan r sqs (qidx :: rest) stepIdx st = execPlan r sqs rest (stepIdx + 1) st)
      ∧ ∀ (r : String → Except String (List ExecHit)) (d : DecompositionResult),
          (∀ i ∈ d.execution_plan, -(d.sub_queries.length : Int) ≤ i) →
          ∃ res, executeDecomposedQuery r d = Except.ok res := by
  constructor
  · intro r sqs rest stepIdx qidx st sq e hlt hpy hr
    rw [execPlan, execStep, if_neg hlt, hpy]
    simp only [hr]
  · intro r d h
    obtain ⟨st2, hst2⟩ := execPlan_ok d.execution_plan r d.sub_queries 0 ([], []) h
    exact ⟨fuseResults st2.2, by rw [executeDecomposedQuery, hst2]; rfl⟩

/-- Witness for C7: a retriever that raises on every call, run on a
single-sub-query plan; the step is skipped and the executor still returns
`ok`. -/
theorem executor_error_handling_witness :
    (execPlan (fun _ => Except.error "down") [⟨"q", "simple", 1, [], false⟩] [0] 0 ([], [])
        = execPlan (fun _ => Except.error "down") [⟨"q", "simple", 1, [], false⟩] [] 1 ([], []))
      ∧ ∃ res, executeDecomposedQuery (fun _ => Except.error "down")
          ⟨"q", ⟨"simple", 0, [], "factual", false⟩, [⟨"q", "simple", 1, [], false⟩], [0]⟩
          = Except.ok res :=
  ⟨executor_error_handling.1 (fun _ => Except.error "down") [⟨"q", "simple", 1, [], false⟩] [] 0 0
      ([], []) ⟨"q", "simple", 1, [], false⟩ "down" (by decide) (by decide) rfl,
    executor_error_handling.2 (fun _ => Except.error "down")
      ⟨"q", ⟨"simple", 0, [], "factual", false⟩, [⟨"q", "simple", 1, [], false⟩], [0]⟩ (by decide)⟩

/-- A fold whose step fixes every `some` accumulator is constant. -/
theorem foldl_some_nil {f : Option (List String) → Int → Option (List String)}
    (hf : ∀ acc i, f (some acc) i = some acc) :
    ∀ (l : List Int) (acc : List String), l.foldl f (some acc) = some acc := by
  intro l
  induction l with
  | nil => intro acc; rfl
  | cons i rest ih =>
    intro acc
    rw [List.foldl_cons, hf]
    exact ih acc

/-- C8: when the retrieval backend returned no hits for any sub-query (every
entry of `sub_results` is empty — keys being valid pipeline-produced
indices), the rule-based synthesizer returns one of its two explicit
"no relevant information" answers: a non-empty string, never an exception. -/
theorem synthesizer_empty_corpus (d : DecompositionResult) (srs : SubResults)
    (hkeys : ∀ p ∈ srs, -(d.sub_queries.length : Int) ≤ p.1 ∧ p.1 < (d.sub_queries.length : Int))
    (hempty : ∀ p ∈ srs, p.2 = ([] : List ExecHit)) :
    ∃ s, synthesizeResults d srs = some s ∧ s ≠ "" ∧
      (s = "抱歉，没有找到相关信息。" ∨ s = "抱歉，没有找到相关信息来回答您的问题。") := by
  have hcmpstep : ∀ acc qidx, synthCmpStep d srs (some acc) qidx = some acc := by
    intro acc qidx
    simp only [synthCmpStep]
    cases hf : dictFind srs qidx with
    | none => rfl
    | some results =>
      have hres : results = [] := hempty _ (dictFind_mem hf)
      obtain ⟨hlo, hhi⟩ := hkeys _ (dictFind_mem hf)
      simp only at hlo hhi
      obtain ⟨sq, hsq⟩ := pyIndex_some d.sub_queries qidx hlo hhi
      subst hres
      simp [hsq]
  have hmastep : ∀ acc qidx, synthMAStep d srs (some acc) qidx = some acc := by
    intro acc qidx
    simp only [synthMAStep]
    cases hf : dictFind srs qidx with
    | none => rfl
    | some results =>
      have hres : results = [] := hempty _ (dictFind_mem hf)
      obtain ⟨hlo, hhi⟩ := hkeys _ (dictFind_mem hf)
      simp only at hlo hhi
      obtain ⟨sq, hsq⟩ := pyIndex_some d.sub_queries qidx hlo hhi
      subst hres
      simp [hsq, hhi]
  by_cases h0 : srs = []
  · exact ⟨"抱歉，没有找到相关信息。", by rw [synthesizeResults, if_pos h0], by decide, Or.inl rfl⟩
  · by_cases h1 : srs.length = 1
    · obtain ⟨p, rfl⟩ : ∃ p, srs = [p] := by
        cases srs with
        | nil => exact absurd rfl h0
        | cons p rest =>
          cases rest with
          | nil => exact ⟨p, rfl⟩
          | cons q t => simp at h1
      refine ⟨"抱歉，没有找到相关信息。", ?_, by decide, Or.inl rfl⟩
      rw [synthesizeResults, if_neg h0, if_pos h1]
      have hp : p.2 = [] := hempty p (List.mem_cons_self _ _)
      simp [generateSimpleAnswer, hp]
    · have hcmp : synthComparative d srs = some [] := by
        rw [synthComparative, foldl_some_nil hcmpstep]
        cases hl : d.execution_plan.getLast? with
        | none => rfl
        | some lastIdx =>
          cases hf : dictFind srs lastIdx with
          | none => simp [hf]
          | some comparison_results =>
            have hres : comparison_results = [] := hempty _ (dictFind_mem hf)
            subst hres
            simp [hf]
      have hma : synthMultiAspect d srs = some [] := by
        rw [synthMultiAspect, foldl_some_nil hmastep]
      have hgen : synthGeneral srs d.execution_plan = [] := by
        have hstep : ∀ (l : List Int) (acc : List String),
            l.foldl (synthGenStep srs) acc = acc := by
          intro l
          induction l with
          | nil => intro acc; rfl
          | cons i rest ih =>
            intro acc
            rw [List.foldl_cons]
            have hs : synthGenStep srs acc i = acc := by
              simp only [synthGenStep]
              cases hf : dictFind srs i with
              | none => rfl
              | some results =>
                have hres : results = [] := hempty _ (dictFind_mem hf)
                subst hres
                simp
            rw [hs]
            exact ih acc
        rw [synthGeneral, hstep]
      rw [synthesizeResults, if_neg h0, if_neg h1, ruleBasedSynthesize]
      by_cases hc : d.intent.intent_type = "comparative"
      · rw [if_pos hc, hcmp]
        exact ⟨"抱歉，没有找到相关信息来回答您的问题。", by simp, by decide, Or.inr rfl⟩
      · rw [if_neg hc]
        by_cases hm : d.intent.intent_type = "multi_aspect"
        · rw [if_pos hm, hma]
          exact ⟨"抱歉，没有找到相关信息来回答您的问题。", by simp, by decide, Or.inr rfl⟩
        · rw [if_neg hm, hgen]
          exact ⟨"抱歉，没有找到相关信息来回答您的问题。", by simp, by decide, Or.inr rfl⟩

/-- Witness for C8: a two-sub-query comparative decomposition whose two
result sets are both empty. -/
theorem synthesizer_empty_corpus_witness :
    ∃ s, synthesizeResults
        ⟨"比较q", ⟨"comparative", 7, ["a", "b"], "comparative", true⟩,
          [⟨"a", "ia", 1, [], false⟩, ⟨"b", "ib", 1, [], false⟩], [0, 1]⟩
        [(0, []), (1, [])] = some s ∧ s ≠ "" ∧
      (s = "抱歉，没有找到相关信息。" ∨ s = "抱歉，没有找到相关信息来回答您的问题。") :=
  synthesizer_empty_corpus
    ⟨"比较q", ⟨"comparative", 7, ["a", "b"], "comparative", true⟩,
      [⟨"a", "ia", 1, [], false⟩, ⟨"b", "ib", 1, [], false⟩], [0, 1]⟩
    [(0, []), (1, [])] (by decide) (by decide)

end MultimodalRag
